import Mathlib

/-!
Verification of the finite-site mutation-model core of the
`2025-ts-workshops` notebooks.

The central piece of repository code is the `count_transitions` helper of
worksheet 3:

    def count_transitions(ts, alleles):
        counts = np.zeros((len(alleles), len(alleles)), dtype='int')
        for s in ts.sites():
            aa = s.ancestral_state
            for m in s.mutations:
                pa = aa
                da = m.derived_state
                if m.parent != tskit.NULL:
                    pa = ts.mutation(m.parent).derived_state
                counts[alleles.index(pa), alleles.index(da)] += 1
        ...

A tree sequence is embedded as its list of sites; each site carries an
ancestral state and its (time-ordered) list of mutations; a mutation
carries a derived state and an integer parent reference into the global
mutation table (`tskit.NULL = -1` meaning "no parent").  The global
mutation table is the concatenation of the per-site mutation lists, which
is exactly how tskit lays mutations out (sorted by site).  Python
exceptions (`ValueError` from `list.index`, i.e. the spec's
`UnknownAlleleError`, and an out-of-range mutation id) are modelled by
`Option`: `none` is the failing run.
-/

structure Mutation where
  derived_state : String
  parent : Int
deriving DecidableEq

structure Site where
  ancestral_state : String
  mutations : List Mutation
deriving DecidableEq

structure TreeSeq where
  sites : List Site
deriving DecidableEq

/-- `tskit.NULL`, the sentinel for "no parent mutation". -/
def tskitNULL : Int := -1

/-- The global mutation table: all mutations of all sites, in site order.
This mirrors tskit's mutation table, which is sorted by site. -/
def TreeSeq.allMutations (ts : TreeSeq) : List Mutation :=
  (ts.sites.map Site.mutations).flatten

/-- `ts.mutation(j)`: look up a mutation by its id in the global table.
An out-of-range id is a failing lookup. -/
def TreeSeq.mutation (ts : TreeSeq) (j : Int) : Option Mutation :=
  if 0 ≤ j then ts.allMutations[j.toNat]? else none

/-- The loop body's resolution of the parent allele `pa`:
`pa = aa; if m.parent != tskit.NULL: pa = ts.mutation(m.parent).derived_state`. -/
def effParent (ts : TreeSeq) (aa : String) (m : Mutation) : Option String :=
  if m.parent = tskitNULL then some aa
  else (ts.mutation m.parent).map Mutation.derived_state

/-- Python's `list.index`: position of the first occurrence, failing
(`ValueError`, the spec's `UnknownAlleleError`) when the element is absent. -/
def listIndex : List String → String → Option Nat
  | [], _ => none
  | a :: rest, x => if a = x then some 0 else (listIndex rest x).map (· + 1)

/-- `row[j] += 1` on one row of the count matrix. -/
def bumpRow : List Nat → Nat → List Nat
  | [], _ => []
  | c :: cs, 0 => (c + 1) :: cs
  | c :: cs, j + 1 => c :: bumpRow cs j

/-- `counts[i, j] += 1` on the count matrix. -/
def bumpMat : List (List Nat) → Nat → Nat → List (List Nat)
  | [], _, _ => []
  | r :: rs, 0, j => bumpRow r j :: rs
  | r :: rs, i + 1, j => r :: bumpMat rs i j

/-- Entry `(i, j)` of a count matrix, defaulting to `0` out of range. -/
def getEntry (M : List (List Nat)) (i j : Nat) : Nat :=
  (M.getD i []).getD j 0

/-- One iteration of the inner loop of `count_transitions`:
resolve `pa`, look up both indices, increment the cell.  Any failing
lookup aborts the whole run. -/
def countMutation (ts : TreeSeq) (alleles : List String) (aa : String)
    (counts : List (List Nat)) (m : Mutation) : Option (List (List Nat)) :=
  match effParent ts aa m with
  | none => none
  | some pa =>
    match listIndex alleles pa, listIndex alleles m.derived_state with
    | some i, some j => some (bumpMat counts i j)
    | _, _ => none

/-- The inner loop of `count_transitions` over one site's mutations. -/
def countSite (ts : TreeSeq) (alleles : List String)
    (counts : List (List Nat)) (s : Site) : Option (List (List Nat)) :=
  s.mutations.foldlM (countMutation ts alleles s.ancestral_state) counts

/-- `np.zeros((k, k), dtype='int')`. -/
def zerosMat (k : Nat) : List (List Nat) :=
  List.replicate k (List.replicate k 0)

/-- `count_transitions(ts, alleles)`: the count matrix the source computes
(and prints).  `none` models the run aborting with an exception. -/
def count_transitions (ts : TreeSeq) (alleles : List String) :
    Option (List (List Nat)) :=
  ts.sites.foldlM (countSite ts alleles) (zerosMat alleles.length)

/-! ### The scenario data of spec §8 -/

/-- Site 1 of the spec's test scenario: ancestral "A", one parentless
mutation to "C". -/
def exSite1 : Site := ⟨"A", [⟨"C", -1⟩]⟩

/-- Site 2: ancestral "G"; first mutation to "T" (no parent), second to
"A" whose parent is the first (global mutation id 1). -/
def exSite2 : Site := ⟨"G", [⟨"T", -1⟩, ⟨"A", 1⟩]⟩

/-- Site 3: ancestral "C", no mutations. -/
def exSite3 : Site := ⟨"C", []⟩

/-- The three-site scenario tree sequence of spec §8. -/
def exTs : TreeSeq := ⟨[exSite1, exSite2, exSite3]⟩

/-- The nucleotide alphabet of the Jukes-Cantor model. -/
def exAlleles : List String := ["A", "C", "G", "T"]

/-! ### Basic facts about `listIndex` -/

theorem listIndex_lt :
    ∀ (l : List String) (x : String) (i : Nat),
      listIndex l x = some i → i < l.length := by
  intro l
  induction l with
  | nil => intro x i h; simp [listIndex] at h
  | cons a rest ih =>
    intro x i h
    by_cases hax : a = x
    · simp [listIndex, hax] at h
      simp only [List.length_cons]
      omega
    · simp only [listIndex, if_neg hax, Option.map_eq_some'] at h
      obtain ⟨i', hi', rfl⟩ := h
      have := ih x i' hi'
      simp only [List.length_cons]
      omega

theorem listIndex_getD :
    ∀ (l : List String) (x : String) (i : Nat),
      listIndex l x = some i → l.getD i "" = x := by
  intro l
  induction l with
  | nil => intro x i h; simp [listIndex] at h
  | cons a rest ih =>
    intro x i h
    by_cases hax : a = x
    · simp [listIndex, hax] at h
      subst h
      simpa using hax
    · simp only [listIndex, if_neg hax, Option.map_eq_some'] at h
      obtain ⟨i', hi', rfl⟩ := h
      simpa using ih x i' hi'

theorem listIndex_of_nodup :
    ∀ (l : List String) (x : String) (i : Nat),
      l.Nodup → i < l.length → l.getD i "" = x → listIndex l x = some i := by
  intro l
  induction l with
  | nil => intro x i _ hi; simp at hi
  | cons a rest ih =>
    intro x i hnd hi hget
    rcases List.nodup_cons.mp hnd with ⟨hnotmem, hndr⟩
    match i with
    | 0 =>
      simp only [List.getD] at hget
      simp at hget
      simp [listIndex, hget]
    | i' + 1 =>
      have hget' : rest.getD i' "" = x := by simpa using hget
      have hi' : i' < rest.length := by simp at hi; omega
      have hax : ¬ a = x := by
        intro hax
        apply hnotmem
        have hx : x ∈ rest := by
          rw [← hget']
          rw [List.getD_eq_getElem rest "" hi']
          exact List.getElem_mem hi'
        rwa [hax]
      simp [listIndex, hax, ih x i' hndr hi' hget']

theorem listIndex_eq_some_of_mem :
    ∀ (l : List String) (x : String), x ∈ l → ∃ i, listIndex l x = some i := by
  intro l
  induction l with
  | nil => intro x h; simp at h
  | cons a rest ih =>
    intro x h
    by_cases hax : a = x
    · exact ⟨0, by simp [listIndex, hax]⟩
    · have hx : x ∈ rest := by
        rcases List.mem_cons.mp h with h' | h'
        · exact absurd h'.symm hax
        · exact h'
      obtain ⟨i, hi⟩ := ih x hx
      exact ⟨i + 1, by simp [listIndex, hax, hi]⟩

theorem mem_of_listIndex_eq_some (l : List String) (x : String) (i : Nat)
    (h : listIndex l x = some i) : x ∈ l := by
  have hlt := listIndex_lt l x i h
  have hget := listIndex_getD l x i h
  rw [← hget, List.getD_eq_getElem l "" hlt]
  exact List.getElem_mem hlt

/-! ### Facts about the in-place increments -/

theorem bumpRow_length (r : List Nat) : ∀ j, (bumpRow r j).length = r.length := by
  induction r with
  | nil => intro j; rfl
  | cons c cs ih => intro j; cases j <;> simp [bumpRow, ih]

theorem bumpRow_getD_self (r : List Nat) :
    ∀ j, j < r.length → (bumpRow r j).getD j 0 = r.getD j 0 + 1 := by
  induction r with
  | nil => intro j hj; simp at hj
  | cons c cs ih =>
    intro j hj
    cases j with
    | zero => simp [bumpRow]
    | succ j' =>
      have : j' < cs.length := by simp at hj; omega
      simpa [bumpRow] using ih j' this

theorem bumpRow_getD_other (r : List Nat) :
    ∀ j j', j' ≠ j → (bumpRow r j).getD j' 0 = r.getD j' 0 := by
  induction r with
  | nil => intro j j' _; simp [bumpRow]
  | cons c cs ih =>
    intro j j' hne
    cases j with
    | zero =>
      cases j' with
      | zero => exact absurd rfl hne
      | succ j₂ => simp [bumpRow]
    | succ j₁ =>
      cases j' with
      | zero => simp [bumpRow]
      | succ j₂ =>
        have : j₂ ≠ j₁ := by omega
        simpa [bumpRow] using ih j₁ j₂ this

theorem bumpRow_sum (r : List Nat) :
    ∀ j, j < r.length → (bumpRow r j).sum = r.sum + 1 := by
  induction r with
  | nil => intro j hj; simp at hj
  | cons c cs ih =>
    intro j hj
    cases j with
    | zero => simp [bumpRow]; omega
    | succ j' =>
      have hj' : j' < cs.length := by simp at hj; omega
      simp [bumpRow, ih j' hj']
      omega

theorem bumpMat_length (M : List (List Nat)) :
    ∀ i j, (bumpMat M i j).length = M.length := by
  induction M with
  | nil => intro i j; rfl
  | cons r rs ih => intro i j; cases i <;> simp [bumpMat, ih]

theorem bumpMat_getD_self (M : List (List Nat)) :
    ∀ i j, i < M.length → (bumpMat M i j).getD i [] = bumpRow (M.getD i []) j := by
  induction M with
  | nil => intro i j hi; simp at hi
  | cons r rs ih =>
    intro i j hi
    cases i with
    | zero => simp [bumpMat]
    | succ i' =>
      have : i' < rs.length := by simp at hi; omega
      simpa [bumpMat] using ih i' j this

theorem bumpMat_getD_other (M : List (List Nat)) :
    ∀ i j i', i' ≠ i → (bumpMat M i j).getD i' [] = M.getD i' [] := by
  induction M with
  | nil => intro i j i' _; simp [bumpMat]
  | cons r rs ih =>
    intro i j i' hne
    cases i with
    | zero =>
      cases i' with
      | zero => exact absurd rfl hne
      | succ i₂ => simp [bumpMat]
    | succ i₁ =>
      cases i' with
      | zero => simp [bumpMat]
      | succ i₂ =>
        have : i₂ ≠ i₁ := by omega
        simpa [bumpMat] using ih i₁ j i₂ this

/-! ### Matrix shape and total -/

/-- `M` is a `k × k` matrix. -/
def matShape (k : Nat) (M : List (List Nat)) : Prop :=
  M.length = k ∧ ∀ r ∈ M, r.length = k

/-- Sum of all entries of the count matrix. -/
def matTotal (M : List (List Nat)) : Nat :=
  (M.map List.sum).sum

theorem bumpMat_rows (M : List (List Nat)) :
    ∀ i j k, (∀ r ∈ M, r.length = k) → ∀ r ∈ bumpMat M i j, r.length = k := by
  induction M with
  | nil => intro i j k _ r hr; simp [bumpMat] at hr
  | cons r₀ rs ih =>
    intro i j k hrows r hr
    cases i with
    | zero =>
      rcases List.mem_cons.mp hr with h | h
      · subst h
        rw [bumpRow_length]
        exact hrows r₀ (List.mem_cons_self _ _)
      · exact hrows r (List.mem_cons_of_mem _ h)
    | succ i' =>
      rcases List.mem_cons.mp hr with h | h
      · subst h; exact hrows r (List.mem_cons_self _ _)
      · exact ih i' j k (fun r' hr' => hrows r' (List.mem_cons_of_mem _ hr')) r h

theorem matShape_bumpMat (k : Nat) (M : List (List Nat)) (i j : Nat)
    (h : matShape k M) : matShape k (bumpMat M i j) :=
  ⟨by rw [bumpMat_length]; exact h.1, bumpMat_rows M i j k h.2⟩

theorem matShape_row (k : Nat) (M : List (List Nat)) (i : Nat)
    (h : matShape k M) (hi : i < k) : (M.getD i []).length = k := by
  have hlen : i < M.length := by rw [h.1]; exact hi
  apply h.2
  rw [List.getD_eq_getElem M [] hlen]
  exact List.getElem_mem hlen

theorem matTotal_bumpMat (M : List (List Nat)) :
    ∀ i j, i < M.length → j < (M.getD i []).length →
      matTotal (bumpMat M i j) = matTotal M + 1 := by
  induction M with
  | nil => intro i j hi _; simp at hi
  | cons r rs ih =>
    intro i j hi hj
    cases i with
    | zero =>
      simp only [List.getD_cons_zero] at hj
      simp [bumpMat, matTotal, bumpRow_sum r j hj]
      omega
    | succ i' =>
      have hi' : i' < rs.length := by simp at hi; omega
      have hj' : j < (rs.getD i' []).length := by simpa using hj
      simp only [bumpMat, matTotal, List.map_cons, List.sum_cons]
      have := ih i' j hi' hj'
      simp only [matTotal] at this
      omega

theorem matShape_zerosMat (k : Nat) : matShape k (zerosMat k) := by
  constructor
  · simp [zerosMat]
  · intro r hr
    rw [List.eq_of_mem_replicate hr]
    simp

theorem getEntry_zerosMat (k i j : Nat) : getEntry (zerosMat k) i j = 0 := by
  unfold getEntry zerosMat
  rcases Nat.lt_or_ge i k with hi | hi
  · rw [List.getD_eq_getElem _ [] (by simpa using hi)]
    simp only [List.getElem_replicate]
    rcases Nat.lt_or_ge j k with hj | hj
    · rw [List.getD_eq_getElem _ 0 (by simpa using hj)]
      simp
    · rw [List.getD_eq_default _ 0 (by simpa using hj)]
  · rw [List.getD_eq_default _ [] (by simpa using hi)]
    simp

theorem matTotal_zerosMat (k : Nat) : matTotal (zerosMat k) = 0 := by
  unfold matTotal zerosMat
  induction k with
  | zero => simp
  | succ k' _ => simp

/-! ### Per-event success and matching -/

/-- An event is processable against `alleles`: its effective parent state
resolves and both looked-up states are in the alphabet.  Failure of this
is exactly what the spec calls `UnknownAlleleError` (or a dangling parent
reference). -/
def eventOk (ts : TreeSeq) (alleles : List String) (aa : String) (m : Mutation) : Prop :=
  ∃ pa, effParent ts aa m = some pa ∧ pa ∈ alleles ∧ m.derived_state ∈ alleles

instance eventOk_decidable (ts : TreeSeq) (alleles : List String)
    (aa : String) (m : Mutation) : Decidable (eventOk ts alleles aa m) :=
  match h : effParent ts aa m with
  | none => isFalse (by simp [eventOk, h])
  | some pa =>
    decidable_of_iff (pa ∈ alleles ∧ m.derived_state ∈ alleles) (by simp [eventOk, h])

/-- The event lands in cell `(i, j)`: both index lookups of the loop body
return `i` and `j`. -/
def matchIdx (ts : TreeSeq) (alleles : List String) (i j : Nat)
    (aa : String) (m : Mutation) : Bool :=
  ((effParent ts aa m).bind (listIndex alleles) == some i) &&
    (listIndex alleles m.derived_state == some j)

theorem countMutation_of_ok (ts : TreeSeq) (alleles : List String) (aa : String)
    (c : List (List Nat)) (m : Mutation) (hok : eventOk ts alleles aa m) :
    ∃ i j, listIndex alleles m.derived_state = some j ∧ i < alleles.length ∧
      j < alleles.length ∧
      countMutation ts alleles aa c m = some (bumpMat c i j) ∧
      ∀ i' j', matchIdx ts alleles i' j' aa m = true ↔ i' = i ∧ j' = j := by
  obtain ⟨pa, hpa, hm1, hm2⟩ := hok
  obtain ⟨i, hi⟩ := listIndex_eq_some_of_mem _ _ hm1
  obtain ⟨j, hj⟩ := listIndex_eq_some_of_mem _ _ hm2
  refine ⟨i, j, hj, listIndex_lt _ _ _ hi, listIndex_lt _ _ _ hj, ?_, ?_⟩
  · simp [countMutation, hpa, hi, hj]
  · intro i' j'
    simp only [matchIdx, hpa, Option.some_bind, hi, hj, Bool.and_eq_true, beq_iff_eq,
      Option.some.injEq]
    constructor
    · rintro ⟨h1, h2⟩; exact ⟨h1.symm, h2.symm⟩
    · rintro ⟨h1, h2⟩; exact ⟨h1.symm, h2.symm⟩

theorem countMutation_eq_none_iff (ts : TreeSeq) (alleles : List String)
    (aa : String) (c : List (List Nat)) (m : Mutation) :
    countMutation ts alleles aa c m = none ↔ ¬ eventOk ts alleles aa m := by
  constructor
  · intro hnone hok
    obtain ⟨i, j, _, _, _, hsome, _⟩ := countMutation_of_ok ts alleles aa c m hok
    rw [hsome] at hnone
    exact Option.noConfusion hnone
  · intro hok
    cases hpa : effParent ts aa m with
    | none => simp [countMutation, hpa]
    | some pa =>
      cases hi : listIndex alleles pa with
      | none => simp [countMutation, hpa, hi]
      | some i =>
        cases hj : listIndex alleles m.derived_state with
        | none => simp [countMutation, hpa, hi, hj]
        | some j =>
          exfalso
          exact hok ⟨pa, hpa, mem_of_listIndex_eq_some _ _ _ hi,
            mem_of_listIndex_eq_some _ _ _ hj⟩

theorem bumpMat_of_length_le (M : List (List Nat)) :
    ∀ i j, M.length ≤ i → bumpMat M i j = M := by
  induction M with
  | nil => intro i j _; rfl
  | cons r rs ih =>
    intro i j hi
    cases i with
    | zero => simp at hi
    | succ i' =>
      have : rs.length ≤ i' := by simp at hi; omega
      simp [bumpMat, ih i' j this]

theorem getEntry_bumpMat_self (M : List (List Nat)) (i j : Nat)
    (hi : i < M.length) (hj : j < (M.getD i []).length) :
    getEntry (bumpMat M i j) i j = getEntry M i j + 1 := by
  unfold getEntry
  rw [bumpMat_getD_self M i j hi, bumpRow_getD_self _ j hj]

theorem getEntry_bumpMat_other (M : List (List Nat)) (i j i' j' : Nat)
    (h : ¬ (i' = i ∧ j' = j)) :
    getEntry (bumpMat M i j) i' j' = getEntry M i' j' := by
  by_cases hii : i' = i
  · subst hii
    have hjj : j' ≠ j := fun hjj => h ⟨rfl, hjj⟩
    rcases Nat.lt_or_ge i' M.length with hlt | hge
    · unfold getEntry
      rw [bumpMat_getD_self M i' j hlt, bumpRow_getD_other _ j j' hjj]
    · rw [bumpMat_of_length_le M i' j hge]
  · unfold getEntry
    rw [bumpMat_getD_other M i j i' hii]

/-! ### The master characterisation of the counting folds -/

/-- Number of events of a run over the site list `l` landing in cell
`(i, j)`; parent resolution happens against the full tree sequence `ts`,
exactly as in the source's `ts.mutation(m.parent)`. -/
def idxCountSites (ts : TreeSeq) (alleles : List String) (i j : Nat)
    (l : List Site) : Nat :=
  (l.map (fun s =>
    (s.mutations.filter (matchIdx ts alleles i j s.ancestral_state)).length)).sum

/-- Total number of mutation events carried by the site list `l`. -/
def totalMuts (l : List Site) : Nat :=
  (l.map (fun s => s.mutations.length)).sum

theorem foldl_countMutation_master (ts : TreeSeq) (alleles : List String)
    (aa : String) :
    ∀ (ms : List Mutation) (c : List (List Nat)),
      (∀ m ∈ ms, eventOk ts alleles aa m) →
      matShape alleles.length c →
      ∃ M, ms.foldlM (countMutation ts alleles aa) c = some M ∧
        matShape alleles.length M ∧
        (∀ i j, getEntry M i j =
          getEntry c i j + (ms.filter (matchIdx ts alleles i j aa)).length) ∧
        matTotal M = matTotal c + ms.length := by
  intro ms
  induction ms with
  | nil =>
    intro c _ hshape
    exact ⟨c, rfl, hshape, by simp, by simp⟩
  | cons m ms ih =>
    intro c hall hshape
    obtain ⟨i₀, j₀, _, hi₀, hj₀, hstep, hmatch⟩ :=
      countMutation_of_ok ts alleles aa c m (hall m (List.mem_cons_self _ _))
    have hi₀c : i₀ < c.length := by rw [hshape.1]; exact hi₀
    have hj₀c : j₀ < (c.getD i₀ []).length := by
      rw [matShape_row alleles.length c i₀ hshape hi₀]; exact hj₀
    have hshape' := matShape_bumpMat alleles.length c i₀ j₀ hshape
    obtain ⟨M, hfold, hMshape, hMentry, hMtotal⟩ :=
      ih (bumpMat c i₀ j₀) (fun m' hm' => hall m' (List.mem_cons_of_mem _ hm')) hshape'
    refine ⟨M, ?_, hMshape, ?_, ?_⟩
    · rw [List.foldlM_cons, hstep]
      simpa using hfold
    · intro i j
      rw [hMentry i j, List.filter_cons]
      by_cases hij : i = i₀ ∧ j = j₀
      · rw [if_pos (by rw [hmatch i j]; exact hij)]
        obtain ⟨rfl, rfl⟩ := hij
        rw [getEntry_bumpMat_self c i j hi₀c hj₀c]
        simp only [List.length_cons]
        omega
      · rw [if_neg (by rw [hmatch i j]; exact hij)]
        rw [getEntry_bumpMat_other c i₀ j₀ i j hij]
    · rw [hMtotal, matTotal_bumpMat c i₀ j₀ hi₀c hj₀c, List.length_cons]
      omega

theorem foldl_countSite_master (ts : TreeSeq) (alleles : List String) :
    ∀ (l : List Site) (c : List (List Nat)),
      (∀ s ∈ l, ∀ m ∈ s.mutations, eventOk ts alleles s.ancestral_state m) →
      matShape alleles.length c →
      ∃ M, l.foldlM (countSite ts alleles) c = some M ∧
        matShape alleles.length M ∧
        (∀ i j, getEntry M i j = getEntry c i j + idxCountSites ts alleles i j l) ∧
        matTotal M = matTotal c + totalMuts l := by
  intro l
  induction l with
  | nil =>
    intro c _ hshape
    exact ⟨c, rfl, hshape, by simp [idxCountSites], by simp [totalMuts]⟩
  | cons s l ih =>
    intro c hall hshape
    obtain ⟨M₁, hfold₁, hshape₁, hentry₁, htotal₁⟩ :=
      foldl_countMutation_master ts alleles s.ancestral_state s.mutations c
        (hall s (List.mem_cons_self _ _)) hshape
    obtain ⟨M, hfold, hMshape, hMentry, hMtotal⟩ :=
      ih M₁ (fun s' hs' => hall s' (List.mem_cons_of_mem _ hs')) hshape₁
    refine ⟨M, ?_, hMshape, ?_, ?_⟩
    · rw [List.foldlM_cons]
      show (countSite ts alleles c s).bind _ = some M
      unfold countSite
      rw [hfold₁]
      simpa using hfold
    · intro i j
      rw [hMentry i j, hentry₁ i j]
      simp only [idxCountSites, List.map_cons, List.sum_cons]
      omega
    · rw [hMtotal, htotal₁]
      simp only [totalMuts, List.map_cons, List.sum_cons]
      omega

/-! ### Characterisation of the failing runs -/

theorem foldl_countMutation_eq_none_iff (ts : TreeSeq) (alleles : List String)
    (aa : String) :
    ∀ (ms : List Mutation) (c : List (List Nat)),
      ms.foldlM (countMutation ts alleles aa) c = none ↔
        ∃ m ∈ ms, ¬ eventOk ts alleles aa m := by
  intro ms
  induction ms with
  | nil => intro c; simp
  | cons m ms ih =>
    intro c
    rw [List.foldlM_cons]
    by_cases hm : eventOk ts alleles aa m
    · obtain ⟨i₀, j₀, _, _, _, hstep, _⟩ := countMutation_of_ok ts alleles aa c m hm
      rw [hstep]
      simp only [Option.bind_eq_bind, Option.some_bind]
      rw [ih (bumpMat c i₀ j₀)]
      constructor
      · rintro ⟨m', hm', hbad⟩; exact ⟨m', List.mem_cons_of_mem _ hm', hbad⟩
      · rintro ⟨m', hm', hbad⟩
        rcases List.mem_cons.mp hm' with rfl | hmem
        · exact absurd hm hbad
        · exact ⟨m', hmem, hbad⟩
    · rw [(countMutation_eq_none_iff ts alleles aa c m).mpr hm]
      simp only [Option.bind_eq_bind, Option.none_bind]
      exact ⟨fun _ => ⟨m, List.mem_cons_self _ _, hm⟩, fun _ => trivial⟩

theorem foldl_countSite_eq_none_iff (ts : TreeSeq) (alleles : List String) :
    ∀ (l : List Site) (c : List (List Nat)),
      l.foldlM (countSite ts alleles) c = none ↔
        ∃ s ∈ l, ∃ m ∈ s.mutations, ¬ eventOk ts alleles s.ancestral_state m := by
  intro l
  induction l with
  | nil => intro c; simp
  | cons s l ih =>
    intro c
    rw [List.foldlM_cons]
    show (countSite ts alleles c s).bind _ = none ↔ _
    cases hsite : countSite ts alleles c s with
    | none =>
      unfold countSite at hsite
      rw [foldl_countMutation_eq_none_iff] at hsite
      simp only [Option.bind_eq_bind, Option.none_bind]
      exact ⟨fun _ => ⟨s, List.mem_cons_self _ _, hsite⟩, fun _ => trivial⟩
    | some c' =>
      simp only [Option.bind_eq_bind, Option.some_bind]
      rw [ih c']
      constructor
      · rintro ⟨s', hs', hbad⟩; exact ⟨s', List.mem_cons_of_mem _ hs', hbad⟩
      · rintro ⟨s', hs', hbad⟩
        rcases List.mem_cons.mp hs' with rfl | hmem
        · exfalso
          obtain ⟨m, hm, hbadm⟩ := hbad
          have : countSite ts alleles c s' = none := by
            unfold countSite
            rw [foldl_countMutation_eq_none_iff]
            exact ⟨m, hm, hbadm⟩
          rw [this] at hsite
          exact Option.noConfusion hsite
        · exact ⟨s', hmem, hbad⟩

/-! ### The spec-level description of the count matrix -/

/-- The spec's description of a counted event: its effective parent state
is `a` (the site's ancestral state when parentless, else the parent
mutation's derived state) and its derived state is `b`. -/
def matchEvent (ts : TreeSeq) (a b : String) (aa : String) (m : Mutation) : Bool :=
  (effParent ts aa m == some a) && (m.derived_state == b)

/-- Spec §3 `TransitionCountMatrix`: the number of mutation events across
all sites whose effective parent state is `a` and derived state is `b`. -/
def specCount (ts : TreeSeq) (a b : String) : Nat :=
  (ts.sites.map (fun s =>
    (s.mutations.filter (matchEvent ts a b s.ancestral_state)).length)).sum

theorem matchIdx_eq_matchEvent (ts : TreeSeq) (alleles : List String)
    (aa : String) (m : Mutation) (hnd : alleles.Nodup) (i j : Nat)
    (hi : i < alleles.length) (hj : j < alleles.length)
    (hok : eventOk ts alleles aa m) :
    matchIdx ts alleles i j aa m =
      matchEvent ts (alleles.getD i "") (alleles.getD j "") aa m := by
  obtain ⟨pa, hpa, _, _⟩ := hok
  have h1 : listIndex alleles pa = some i ↔ pa = alleles.getD i "" :=
    ⟨fun h => (listIndex_getD _ _ _ h).symm,
     fun h => listIndex_of_nodup _ _ _ hnd hi h.symm⟩
  have h2 : listIndex alleles m.derived_state = some j ↔
      m.derived_state = alleles.getD j "" :=
    ⟨fun h => (listIndex_getD _ _ _ h).symm,
     fun h => listIndex_of_nodup _ _ _ hnd hj h.symm⟩
  apply Bool.eq_iff_iff.mpr
  simp only [matchIdx, matchEvent, hpa, Option.some_bind, Bool.and_eq_true,
    beq_iff_eq, Option.some.injEq]
  rw [h1, h2]

/-- Inputs whose observed states all lie in the alphabet and whose parent
references all resolve have every event processable. -/
theorem mutation_mem_allMutations (ts : TreeSeq) (p : Int) (m' : Mutation)
    (h : ts.mutation p = some m') : m' ∈ ts.allMutations := by
  unfold TreeSeq.mutation at h
  by_cases hp : 0 ≤ p
  · rw [if_pos hp] at h
    exact List.getElem?_mem h
  · rw [if_neg hp] at h
    exact absurd h (by simp)

theorem site_of_mem_allMutations (ts : TreeSeq) (m' : Mutation)
    (h : m' ∈ ts.allMutations) : ∃ s ∈ ts.sites, m' ∈ s.mutations := by
  unfold TreeSeq.allMutations at h
  rw [List.mem_flatten] at h
  obtain ⟨lm, hlm, hm⟩ := h
  rw [List.mem_map] at hlm
  obtain ⟨s, hs, rfl⟩ := hlm
  exact ⟨s, hs, hm⟩

theorem eventOk_of_covered (ts : TreeSeq) (alleles : List String)
    (hanc : ∀ s ∈ ts.sites, s.ancestral_state ∈ alleles)
    (hder : ∀ s ∈ ts.sites, ∀ m ∈ s.mutations, m.derived_state ∈ alleles) :
    ∀ s ∈ ts.sites, ∀ m ∈ s.mutations,
      (effParent ts s.ancestral_state m).isSome →
      eventOk ts alleles s.ancestral_state m := by
  intro s hs m hm hres
  cases hpa : effParent ts s.ancestral_state m with
  | none => rw [hpa] at hres; simp at hres
  | some pa =>
    refine ⟨pa, hpa, ?_, hder s hs m hm⟩
    unfold effParent at hpa
    by_cases hp : m.parent = tskitNULL
    · rw [if_pos hp] at hpa
      obtain rfl : s.ancestral_state = pa := Option.some.inj hpa
      exact hanc s hs
    · rw [if_neg hp, Option.map_eq_some'] at hpa
      obtain ⟨m', hm', rfl⟩ := hpa
      obtain ⟨s', hs', hmem⟩ :=
        site_of_mem_allMutations ts m' (mutation_mem_allMutations ts _ m' hm')
      exact hder s' hs' m' hmem

/-! ### Extensionality and elementwise addition of count matrices -/

theorem row_ext : ∀ (r s : List Nat), r.length = s.length →
    (∀ j, r.getD j 0 = s.getD j 0) → r = s := by
  intro r
  induction r with
  | nil =>
    intro s h _
    exact (List.length_eq_zero.mp h.symm).symm
  | cons a r ih =>
    intro s h hent
    cases s with
    | nil => simp at h
    | cons b s' =>
      have h0 := hent 0
      simp only [List.getD_cons_zero] at h0
      have htail : r = s' := ih s' (by simpa using h) (fun j => by simpa using hent (j + 1))
      rw [h0, htail]

theorem mat_ext : ∀ (M N : List (List Nat)), M.length = N.length →
    (∀ i, i < M.length → (M.getD i []).length = (N.getD i []).length) →
    (∀ i j, getEntry M i j = getEntry N i j) → M = N := by
  intro M
  induction M with
  | nil =>
    intro N h _ _
    exact (List.length_eq_zero.mp h.symm).symm
  | cons r M ih =>
    intro N h hrow hent
    cases N with
    | nil => simp at h
    | cons t N' =>
      have hhead : r = t := by
        apply row_ext r t (by simpa using hrow 0 (by simp))
        intro j
        simpa [getEntry] using hent 0 j
      have htail : M = N' := by
        apply ih N' (by simpa using h)
        · intro i hi
          simpa using hrow (i + 1) (by simp; omega)
        · intro i j
          simpa [getEntry] using hent (i + 1) j
      rw [hhead, htail]

/-- Elementwise addition of two count matrices (the spec's merge of
per-shard results). -/
def matAdd (A B : List (List Nat)) : List (List Nat) :=
  List.zipWith (List.zipWith (· + ·)) A B

theorem zipWith_getD {α β γ : Type} (f : α → β → γ) :
    ∀ (A : List α) (B : List β) (i : Nat) (dA : α) (dB : β) (dC : γ),
      i < A.length → i < B.length →
      (List.zipWith f A B).getD i dC = f (A.getD i dA) (B.getD i dB) := by
  intro A
  induction A with
  | nil => intro B i _ _ _ hi _; simp at hi
  | cons a A ih =>
    intro B i dA dB dC hi hiB
    cases B with
    | nil => simp at hiB
    | cons b B' =>
      cases i with
      | zero => simp [List.zipWith]
      | succ i' =>
        have h1 : i' < A.length := by simp at hi; omega
        have h2 : i' < B'.length := by simp at hiB; omega
        simpa [List.zipWith] using ih B' i' dA dB dC h1 h2

theorem getEntry_matAdd (k : Nat) (A B : List (List Nat))
    (hA : matShape k A) (hB : matShape k B) :
    ∀ i j, getEntry (matAdd A B) i j = getEntry A i j + getEntry B i j := by
  intro i j
  rcases Nat.lt_or_ge i k with hik | hik
  · have hiA : i < A.length := by rw [hA.1]; exact hik
    have hiB : i < B.length := by rw [hB.1]; exact hik
    have hrow : (matAdd A B).getD i [] =
        List.zipWith (· + ·) (A.getD i []) (B.getD i []) :=
      zipWith_getD _ A B i [] [] [] hiA hiB
    have hrA : (A.getD i []).length = k := matShape_row k A i hA hik
    have hrB : (B.getD i []).length = k := matShape_row k B i hB hik
    unfold getEntry
    rw [hrow]
    rcases Nat.lt_or_ge j k with hjk | hjk
    · exact zipWith_getD _ _ _ j 0 0 0 (by omega) (by omega)
    · rw [List.getD_eq_default _ _ (by rw [List.length_zipWith]; omega),
        List.getD_eq_default _ _ (by omega), List.getD_eq_default _ _ (by omega)]
  · unfold getEntry
    have h1 : A.getD i [] = [] :=
      List.getD_eq_default _ _ (show A.length ≤ i by rw [hA.1]; omega)
    have h2 : B.getD i [] = [] :=
      List.getD_eq_default _ _ (show B.length ≤ i by rw [hB.1]; omega)
    have h3 : (matAdd A B).getD i [] = [] :=
      List.getD_eq_default _ _ (show (matAdd A B).length ≤ i by
        unfold matAdd
        rw [List.length_zipWith, hA.1, hB.1]
        omega)
    rw [h1, h2, h3]
    simp

theorem matAdd_row_length (k : Nat) (A B : List (List Nat))
    (hA : matShape k A) (hB : matShape k B) (i : Nat) (hik : i < k) :
    ((matAdd A B).getD i []).length = k := by
  have hiA : i < A.length := by rw [hA.1]; exact hik
  have hiB : i < B.length := by rw [hB.1]; exact hik
  unfold matAdd
  rw [zipWith_getD _ A B i [] [] [] hiA hiB, List.length_zipWith,
    matShape_row k A i hA hik, matShape_row k B i hB hik]
  omega

theorem matAdd_comm (A B : List (List Nat)) : matAdd A B = matAdd B A := by
  unfold matAdd
  apply List.zipWith_comm_of_comm
  intro r s
  apply List.zipWith_comm_of_comm
  intro a b
  omega

/-! ### Disjoint union of tree sequences (sharding, spec §5)

Mutation ids are positions in the global mutation table, so forming the
disjoint union of two site collections offsets the second collection's
parent references by the size of the first's mutation table — exactly the
id remapping tskit performs when tree sequences are combined. -/

/-- Offset a mutation's parent reference by `d` (parentless events are
untouched). -/
def shiftMutation (d : Nat) (m : Mutation) : Mutation :=
  if m.parent = tskitNULL then m else { m with parent := m.parent + d }

/-- Offset every parent reference of a site by `d`. -/
def shiftSite (d : Nat) (s : Site) : Site :=
  { s with mutations := s.mutations.map (shiftMutation d) }

/-- Disjoint union of two tree sequences: concatenate the site lists,
re-basing the second shard's mutation ids past the first shard's table. -/
def TreeSeq.union (t1 t2 : TreeSeq) : TreeSeq :=
  ⟨t1.sites ++ t2.sites.map (shiftSite t1.allMutations.length)⟩

theorem shiftMutation_derived (d : Nat) (m : Mutation) :
    (shiftMutation d m).derived_state = m.derived_state := by
  unfold shiftMutation
  split <;> rfl

theorem allMutations_union (t1 t2 : TreeSeq) :
    (t1.union t2).allMutations =
      t1.allMutations ++
        t2.allMutations.map (shiftMutation t1.allMutations.length) := by
  simp only [TreeSeq.union, TreeSeq.allMutations, List.map_append,
    List.flatten_append, List.map_flatten, List.map_map]
  congr 2

theorem mutation_union_left (t1 t2 : TreeSeq) (p : Int) (m' : Mutation)
    (h : t1.mutation p = some m') : (t1.union t2).mutation p = some m' := by
  unfold TreeSeq.mutation at h ⊢
  by_cases hp : 0 ≤ p
  · rw [if_pos hp] at h ⊢
    rw [allMutations_union]
    have hlt : p.toNat < t1.allMutations.length := by
      by_contra hge
      rw [List.getElem?_eq_none (by omega)] at h
      exact Option.noConfusion h
    rw [List.getElem?_append_left hlt]
    exact h
  · rw [if_neg hp] at h
    exact absurd h (by simp)

theorem mutation_union_right (t1 t2 : TreeSeq) (p : Int) (m' : Mutation)
    (hp : 0 ≤ p) (h : t2.mutation p = some m') :
    (t1.union t2).mutation (p + t1.allMutations.length) =
      some (shiftMutation t1.allMutations.length m') := by
  unfold TreeSeq.mutation at h ⊢
  rw [if_pos hp] at h
  rw [if_pos (by omega)]
  rw [allMutations_union]
  have htn : (p + (t1.allMutations.length : Int)).toNat =
      t1.allMutations.length + p.toNat := by omega
  rw [htn, List.getElem?_append_right (by omega)]
  have hsub : t1.allMutations.length + p.toNat - t1.allMutations.length =
      p.toNat := by omega
  rw [hsub, List.getElem?_map, h]
  rfl

theorem effParent_union_left (t1 t2 : TreeSeq) (aa : String) (m : Mutation)
    (h : (effParent t1 aa m).isSome) :
    effParent (t1.union t2) aa m = effParent t1 aa m := by
  unfold effParent at h ⊢
  by_cases hp : m.parent = tskitNULL
  · simp only [if_pos hp]
  · simp only [if_neg hp] at h ⊢
    cases hm : t1.mutation m.parent with
    | none => rw [hm] at h; simp at h
    | some m' =>
      rw [mutation_union_left t1 t2 _ _ hm]

theorem effParent_union_right (t1 t2 : TreeSeq) (aa : String) (m : Mutation)
    (h : (effParent t2 aa m).isSome) :
    effParent (t1.union t2) aa (shiftMutation t1.allMutations.length m) =
      effParent t2 aa m := by
  by_cases hp : m.parent = tskitNULL
  · simp only [effParent, shiftMutation, if_pos hp]
  · unfold effParent at h
    rw [if_neg hp] at h
    rw [Option.isSome_map'] at h
    obtain ⟨m', hm'⟩ := Option.isSome_iff_exists.mp h
    have hp0 : 0 ≤ m.parent := by
      by_contra hneg
      unfold TreeSeq.mutation at hm'
      rw [if_neg (by omega)] at hm'
      exact Option.noConfusion hm'
    have hparent : (shiftMutation t1.allMutations.length m).parent =
        m.parent + t1.allMutations.length := by
      unfold shiftMutation
      rw [if_neg hp]
    unfold effParent
    rw [if_neg (show ¬ (shiftMutation t1.allMutations.length m).parent = tskitNULL by
        rw [hparent]; simp only [tskitNULL]; omega),
      hparent, mutation_union_right t1 t2 m.parent m' hp0 hm', if_neg hp, hm']
    simp [shiftMutation_derived]

theorem matchIdx_union_left (t1 t2 : TreeSeq) (alleles : List String)
    (i j : Nat) (aa : String) (m : Mutation)
    (h : (effParent t1 aa m).isSome) :
    matchIdx (t1.union t2) alleles i j aa m = matchIdx t1 alleles i j aa m := by
  unfold matchIdx
  rw [effParent_union_left t1 t2 aa m h]

theorem matchIdx_union_right (t1 t2 : TreeSeq) (alleles : List String)
    (i j : Nat) (aa : String) (m : Mutation)
    (h : (effParent t2 aa m).isSome) :
    matchIdx (t1.union t2) alleles i j aa
        (shiftMutation t1.allMutations.length m) =
      matchIdx t2 alleles i j aa m := by
  unfold matchIdx
  rw [effParent_union_right t1 t2 aa m h, shiftMutation_derived]

theorem eventOk_union_left (t1 t2 : TreeSeq) (alleles : List String)
    (aa : String) (m : Mutation) (h : eventOk t1 alleles aa m) :
    eventOk (t1.union t2) alleles aa m := by
  obtain ⟨pa, hpa, hm1, hm2⟩ := h
  exact ⟨pa, by rw [effParent_union_left t1 t2 aa m (by rw [hpa]; rfl)]; exact hpa,
    hm1, hm2⟩

theorem eventOk_union_right (t1 t2 : TreeSeq) (alleles : List String)
    (aa : String) (m : Mutation) (h : eventOk t2 alleles aa m) :
    eventOk (t1.union t2) alleles aa (shiftMutation t1.allMutations.length m) := by
  obtain ⟨pa, hpa, hm1, hm2⟩ := h
  refine ⟨pa, ?_, hm1, ?_⟩
  · rw [effParent_union_right t1 t2 aa m (by rw [hpa]; rfl)]
    exact hpa
  · rw [shiftMutation_derived]
    exact hm2

theorem eventOk_union (t1 t2 : TreeSeq) (alleles : List String)
    (hok1 : ∀ s ∈ t1.sites, ∀ m ∈ s.mutations, eventOk t1 alleles s.ancestral_state m)
    (hok2 : ∀ s ∈ t2.sites, ∀ m ∈ s.mutations, eventOk t2 alleles s.ancestral_state m) :
    ∀ s ∈ (t1.union t2).sites, ∀ m ∈ s.mutations,
      eventOk (t1.union t2) alleles s.ancestral_state m := by
  intro s hs m hm
  rcases List.mem_append.mp hs with h1 | h2
  · exact eventOk_union_left t1 t2 alleles _ m (hok1 s h1 m hm)
  · obtain ⟨s₀, hs₀, rfl⟩ := List.mem_map.mp h2
    obtain ⟨m₀, hm₀, rfl⟩ := List.mem_map.mp hm
    exact eventOk_union_right t1 t2 alleles s₀.ancestral_state m₀ (hok2 s₀ hs₀ m₀ hm₀)

theorem idxCountSites_union (t1 t2 : TreeSeq) (alleles : List String) (i j : Nat)
    (hok1 : ∀ s ∈ t1.sites, ∀ m ∈ s.mutations, eventOk t1 alleles s.ancestral_state m)
    (hok2 : ∀ s ∈ t2.sites, ∀ m ∈ s.mutations, eventOk t2 alleles s.ancestral_state m) :
    idxCountSites (t1.union t2) alleles i j (t1.union t2).sites =
      idxCountSites t1 alleles i j t1.sites +
        idxCountSites t2 alleles i j t2.sites := by
  show idxCountSites (t1.union t2) alleles i j
      (t1.sites ++ t2.sites.map (shiftSite t1.allMutations.length)) = _
  unfold idxCountSites
  rw [List.map_append, List.sum_append]
  congr 1
  · apply congrArg
    apply List.map_congr_left
    intro s hs
    apply congrArg
    apply List.filter_congr
    intro m hm
    obtain ⟨pa, hpa, _, _⟩ := hok1 s hs m hm
    exact matchIdx_union_left t1 t2 alleles i j s.ancestral_state m (by rw [hpa]; rfl)
  · rw [List.map_map]
    apply congrArg
    apply List.map_congr_left
    intro s hs
    show ((s.mutations.map (shiftMutation t1.allMutations.length)).filter
        (matchIdx (t1.union t2) alleles i j s.ancestral_state)).length = _
    rw [List.filter_map, List.length_map]
    apply congrArg
    apply List.filter_congr
    intro m hm
    obtain ⟨pa, hpa, _, _⟩ := hok2 s hs m hm
    exact matchIdx_union_right t1 t2 alleles i j s.ancestral_state m (by rw [hpa]; rfl)

theorem totalMuts_union (t1 t2 : TreeSeq) :
    totalMuts (t1.union t2).sites = totalMuts t1.sites + totalMuts t2.sites := by
  show totalMuts (t1.sites ++ t2.sites.map (shiftSite t1.allMutations.length)) = _
  unfold totalMuts
  rw [List.map_append, List.sum_append, List.map_map]
  congr 1
  apply congrArg
  apply List.map_congr_left
  intro s _
  simp [shiftSite]

/-! ### A state-passing reading of `count_transitions`

The Python function's scope holds `ts`, `alleles` and `counts`; the only
assignment in the loop body writes into `counts`.  `CountState` threads
all three through the loop so that preservation of the inputs is a
provable statement rather than a modelling assumption. -/

structure CountState where
  ts : TreeSeq
  alleles : List String
  counts : List (List Nat)
deriving DecidableEq

/-- The loop body acting on the full variable state. -/
def countMutationS (aa : String) (σ : CountState) (m : Mutation) :
    Option CountState :=
  match effParent σ.ts aa m with
  | none => none
  | some pa =>
    match listIndex σ.alleles pa, listIndex σ.alleles m.derived_state with
    | some i, some j => some { σ with counts := bumpMat σ.counts i j }
    | _, _ => none

/-- The per-site loop acting on the full variable state. -/
def countSiteS (σ : CountState) (s : Site) : Option CountState :=
  s.mutations.foldlM (countMutationS s.ancestral_state) σ

/-- Run `count_transitions` and return the entire final variable state. -/
def count_transitions_run (ts : TreeSeq) (alleles : List String) :
    Option CountState :=
  ts.sites.foldlM countSiteS ⟨ts, alleles, zerosMat alleles.length⟩

theorem countMutationS_eq (ts : TreeSeq) (alleles : List String) (aa : String)
    (c : List (List Nat)) (m : Mutation) :
    countMutationS aa ⟨ts, alleles, c⟩ m =
      (countMutation ts alleles aa c m).map
        (fun M => ⟨ts, alleles, M⟩) := by
  cases hpa : effParent ts aa m with
  | none => simp [countMutationS, countMutation, hpa]
  | some pa =>
    cases hi : listIndex alleles pa with
    | none => simp [countMutationS, countMutation, hpa, hi]
    | some i =>
      cases hj : listIndex alleles m.derived_state with
      | none => simp [countMutationS, countMutation, hpa, hi, hj]
      | some j => simp [countMutationS, countMutation, hpa, hi, hj]

theorem foldl_countMutationS (ts : TreeSeq) (alleles : List String) (aa : String) :
    ∀ (ms : List Mutation) (c : List (List Nat)),
      ms.foldlM (countMutationS aa) ⟨ts, alleles, c⟩ =
        (ms.foldlM (countMutation ts alleles aa) c).map
          (fun M => ⟨ts, alleles, M⟩) := by
  intro ms
  induction ms with
  | nil => intro c; rfl
  | cons m ms ih =>
    intro c
    rw [List.foldlM_cons, List.foldlM_cons, countMutationS_eq]
    cases countMutation ts alleles aa c m with
    | none => rfl
    | some c' =>
      simp only [Option.map_some', Option.bind_eq_bind, Option.some_bind]
      exact ih c'

theorem countSiteS_eq (ts : TreeSeq) (alleles : List String)
    (c : List (List Nat)) (s : Site) :
    countSiteS ⟨ts, alleles, c⟩ s =
      (countSite ts alleles c s).map (fun M => ⟨ts, alleles, M⟩) := by
  show s.mutations.foldlM (countMutationS s.ancestral_state) ⟨ts, alleles, c⟩ = _
  rw [foldl_countMutationS]
  rfl

theorem foldl_countSiteS (ts : TreeSeq) (alleles : List String) :
    ∀ (l : List Site) (c : List (List Nat)),
      l.foldlM countSiteS ⟨ts, alleles, c⟩ =
        (l.foldlM (countSite ts alleles) c).map
          (fun M => ⟨ts, alleles, M⟩) := by
  intro l
  induction l with
  | nil => intro c; rfl
  | cons s l ih =>
    intro c
    rw [List.foldlM_cons, List.foldlM_cons, countSiteS_eq]
    cases countSite ts alleles c s with
    | none => rfl
    | some c' =>
      simp only [Option.map_some', Option.bind_eq_bind, Option.some_bind]
      exact ih c'

/-! ### The mutation-model constructor (spec §4.1) -/

/-- The spec's floating tolerance `1e-9`, as an exact rational. -/
def modelTol : ℚ := 1 / 1000000000

structure MutationModel where
  alleles : List String
  root_distribution : List ℚ
  transition_matrix : List (List ℚ)
deriving DecidableEq

inductive ModelError where
  | modelValidationError
  | dimensionMismatchError
deriving DecidableEq

/-- Modelled from the spec: the notebooks only call msprime's
`MatrixMutationModel` constructor, whose validation logic is not part of
this repository; §4.1 requires `construct` to fail with
`ModelValidationError` on any §3 invariant violation.  Row checks: length,
non-negativity, and row sum within tolerance of 1. -/
def rowsOk : List (List ℚ) → Nat → Bool
  | [], _ => true
  | row :: rest, k =>
    (row.length == k) && row.all (fun x => decide (0 ≤ x)) &&
      decide (|row.sum - 1| ≤ modelTol) && rowsOk rest k

/-- Modelled from the spec: `construct(alleles, root_distribution,
transition_matrix)`, §4.1, checking the §3 invariants in turn and failing
with `ModelValidationError` on the first violation. -/
def construct (alleles : List String) (root_distribution : List ℚ)
    (transition_matrix : List (List ℚ)) : Except ModelError MutationModel :=
  if root_distribution.length ≠ alleles.length then
    .error .modelValidationError
  else if transition_matrix.length ≠ alleles.length then
    .error .modelValidationError
  else if ¬ root_distribution.all (fun x => decide (0 ≤ x)) then
    .error .modelValidationError
  else if ¬ (|root_distribution.sum - 1| ≤ modelTol) then
    .error .modelValidationError
  else if ¬ rowsOk transition_matrix alleles.length then
    .error .modelValidationError
  else
    .ok ⟨alleles, root_distribution, transition_matrix⟩

/-- The §3 invariants of a mutation model, stated declaratively: matching
lengths, non-negative probabilities, stochastic rows and root
distribution within tolerance `1e-9`. -/
def ModelInv (alleles : List String) (rd : List ℚ) (tm : List (List ℚ)) : Prop :=
  rd.length = alleles.length ∧ tm.length = alleles.length ∧
    (∀ row ∈ tm, row.length = alleles.length) ∧
    (∀ x ∈ rd, 0 ≤ x) ∧ (∀ row ∈ tm, ∀ x ∈ row, 0 ≤ x) ∧
    |rd.sum - 1| ≤ modelTol ∧ (∀ row ∈ tm, |row.sum - 1| ≤ modelTol)

instance modelInv_decidable (alleles : List String) (rd : List ℚ)
    (tm : List (List ℚ)) : Decidable (ModelInv alleles rd tm) := by
  unfold ModelInv
  infer_instance

theorem rowsOk_iff (k : Nat) :
    ∀ (tm : List (List ℚ)), rowsOk tm k = true ↔
      ∀ row ∈ tm, row.length = k ∧ (∀ x ∈ row, 0 ≤ x) ∧
        |row.sum - 1| ≤ modelTol := by
  intro tm
  induction tm with
  | nil => simp [rowsOk]
  | cons row rest ih =>
    simp only [rowsOk, Bool.and_eq_true, beq_iff_eq, List.all_eq_true,
      decide_eq_true_eq, ih, List.mem_cons]
    constructor
    · rintro ⟨⟨⟨h1, h2⟩, h3⟩, h4⟩ r hr
      rcases hr with rfl | hr
      · exact ⟨h1, h2, h3⟩
      · exact h4 r hr
    · intro h
      obtain ⟨h1, h2, h3⟩ := h row (Or.inl rfl)
      exact ⟨⟨⟨h1, h2⟩, h3⟩, fun r hr => h r (Or.inr hr)⟩

/-! ### The conformance validator (spec §4.3) -/

inductive RowStatus where
  | pass
  | fail
  | insufficient_data
deriving DecidableEq

/-- One row of a `ConformanceReport`: row index, statistic value and
pass / fail / insufficient-data status. -/
structure RowReport where
  row : Nat
  statistic : ℚ
  status : RowStatus
deriving DecidableEq

/-- Modelled from the spec: the per-row statistic of §4.3, choosing the
max-absolute-deviation option — the largest `|counts[i,j]/n_i - P[i,j]|`
over the row. -/
def rowStatistic (k : Nat) (row : List Nat) (theo : List ℚ) : ℚ :=
  ((List.range k).map
    (fun j => |((row.getD j 0 : Nat) : ℚ) / ((row.sum : Nat) : ℚ) - theo.getD j 0|)).foldl
    max 0

/-- Modelled from the spec: `check_conformance(counts, model, tolerance)`
of §4.3 — `DimensionMismatchError` on mismatched alphabet sizes, otherwise
a per-row report where a row with zero observations is flagged
`insufficient_data` and other rows pass or fail against `tolerance`. -/
def check_conformance (counts : List (List Nat)) (model : MutationModel)
    (tolerance : ℚ) : Except ModelError (List RowReport) :=
  if counts.length = model.alleles.length ∧
      ∀ row ∈ counts, row.length = model.alleles.length then
    .ok (counts.enum.map (fun p =>
      if p.2.sum = 0 then ⟨p.1, 0, RowStatus.insufficient_data⟩
      else
        let stat := rowStatistic model.alleles.length p.2
          (model.transition_matrix.getD p.1 [])
        ⟨p.1, stat, if stat ≤ tolerance then RowStatus.pass else RowStatus.fail⟩))
  else .error .dimensionMismatchError

/-! ### The genealogical-nearest-neighbour helper (worksheet 4)

The source function reads, for a tskit tree `t`: `t.parent(u)`,
`t.leaves(u)` and `node(v).population` (the notebook reads populations off
the enclosing tree sequence `ts_dated`).  Those three accessors are the
embedded tree.  Python's `ZeroDivisionError` (no leaves under the parent
other than the focal sample) is modelled by `none`.  The intermediate
`pop_proportions` dictionary of the source is dead code (never read) and
has no counterpart here. -/

structure TskitTree where
  parent : Nat → Int
  leaves : Nat → List Nat
  population : Nat → Nat

/-- `find_nearest_neighbour_populations(t, focal_sample)`. -/
def find_nearest_neighbour_populations (t : TskitTree) (focal_sample : Nat) :
    Option (ℚ × ℚ) :=
  let p := t.parent focal_sample
  if p = -1 then some (0, 0)
  else
    let children := (t.leaves p.toNat).filter (fun c => c != focal_sample)
    let relative_populations := children.map t.population
    if relative_populations.length = 0 then none
    else
      let count_pop_0 := (relative_populations.filter (fun pop => pop == 0)).length
      let count_pop_1 := relative_populations.length - count_pop_0
      some ((count_pop_0 : ℚ) / (relative_populations.length : ℚ),
        (count_pop_1 : ℚ) / (relative_populations.length : ℚ))

/-! ### Site-order and event-order permutations (spec §4.2 determinism) -/

/-- Two sites carrying the same data up to the order of their mutation
events. -/
def SitePerm (s s' : Site) : Prop :=
  s.ancestral_state = s'.ancestral_state ∧ s.mutations.Perm s'.mutations

theorem forall2_sitePerm_mem_right :
    ∀ {l1 l2 : List Site}, List.Forall₂ SitePerm l1 l2 →
      ∀ s' ∈ l2, ∃ s ∈ l1, SitePerm s s' := by
  intro l1 l2 h
  induction h with
  | nil => intro s' hs'; simp at hs'
  | cons hR _ ih =>
    intro s' hs'
    rcases List.mem_cons.mp hs' with rfl | hs'
    · exact ⟨_, List.mem_cons_self _ _, hR⟩
    · obtain ⟨s, hs, hsp⟩ := ih s' hs'
      exact ⟨s, List.mem_cons_of_mem _ hs, hsp⟩

theorem forall2_sitePerm_mem_left :
    ∀ {l1 l2 : List Site}, List.Forall₂ SitePerm l1 l2 →
      ∀ s ∈ l1, ∃ s' ∈ l2, SitePerm s s' := by
  intro l1 l2 h
  induction h with
  | nil => intro s hs; simp at hs
  | cons hR _ ih =>
    intro s hs
    rcases List.mem_cons.mp hs with rfl | hs
    · exact ⟨_, List.mem_cons_self _ _, hR⟩
    · obtain ⟨s', hs', hsp⟩ := ih s hs
      exact ⟨s', List.mem_cons_of_mem _ hs', hsp⟩

theorem idxCountSites_forall2 (ts : TreeSeq) (alleles : List String) (i j : Nat) :
    ∀ {l1 l2 : List Site}, List.Forall₂ SitePerm l1 l2 →
      idxCountSites ts alleles i j l1 = idxCountSites ts alleles i j l2 := by
  intro l1 l2 h
  induction h with
  | nil => rfl
  | cons hR _ ih =>
    obtain ⟨hanc, hperm⟩ := hR
    simp only [idxCountSites, List.map_cons, List.sum_cons]
    simp only [idxCountSites] at ih
    rw [ih, hanc, (hperm.filter _).length_eq]

theorem idxCountSites_perm (ts : TreeSeq) (alleles : List String) (i j : Nat)
    {l1 l2 : List Site} (h : l1.Perm l2) :
    idxCountSites ts alleles i j l1 = idxCountSites ts alleles i j l2 :=
  (h.map _).sum_eq

/-! ### Further concrete data used by witnesses -/

/-- `exSite2` with its two mutation events listed in the opposite order. -/
def exSite2Swapped : Site := ⟨"G", [⟨"A", 1⟩, ⟨"T", -1⟩]⟩

/-- A one-site shard: ancestral "T", a parentless mutation to "G" followed
by a mutation to "C" stacked on it (parent id 0 in this shard's table). -/
def exTs2 : TreeSeq := ⟨[⟨"T", [⟨"G", -1⟩, ⟨"C", 0⟩]⟩]⟩

/-- A two-leaf tree: samples 0 and 1 hang off node 2, which is the root;
sample `v` belongs to population `v`. -/
def exTree : TskitTree :=
  ⟨fun v => if v = 0 ∨ v = 1 then 2 else -1,
   fun u => if u = 2 then [0, 1] else [],
   fun v => v⟩

/-! ### The claims -/

/-- **C2.**  On the spec §8 scenario — sites ("A", one parentless mutation
to "C"), ("G", mutation to "T" then a stacked mutation to "A"), ("C", no
mutations) against the alphabet `["A","C","G","T"]` — `count_transitions`
returns the matrix with entries (A,C) = 1, (G,T) = 1, (T,A) = 1 and all
other entries 0. -/
theorem count_transitions_scenario :
    count_transitions exTs exAlleles =
      some [[0, 1, 0, 0], [0, 0, 0, 0], [0, 0, 0, 1], [1, 0, 0, 0]] := by
  decide

/-- **C4, counterexample.**  The claim "count fails iff some observed
state — including a Site's `ancestral_state` — is outside the alphabet"
is false on the code: a site whose ancestral state "N" is outside the
alphabet but which carries no mutation events is counted successfully
(the loop body never looks the ancestral state up), producing the zero
matrix. -/
theorem count_transitions_unknownAllele_counterexample :
    (∃ s ∈ (⟨[⟨"N", []⟩]⟩ : TreeSeq).sites, s.ancestral_state = "N") ∧
    "N" ∉ ["A", "C", "G", "T"] ∧
    count_transitions ⟨[⟨"N", []⟩]⟩ ["A", "C", "G", "T"] = some (zerosMat 4) := by
  decide

/-- **C4, amended.**  `count_transitions` fails (the spec's
`UnknownAlleleError`, or a dangling parent reference) iff some mutation
event is unprocessable: its effective parent state does not resolve or
resolves outside the alphabet, or its derived state is outside the
alphabet.  In particular a site with ancestral state "N" and a parentless
mutation fails against `["A","C","G","T"]`; the ancestral state of a site
none of whose events derive from it is never looked up. -/
theorem count_transitions_failure_iff :
    (∀ (ts : TreeSeq) (alleles : List String),
      count_transitions ts alleles = none ↔
        ∃ s ∈ ts.sites, ∃ m ∈ s.mutations,
          ¬ eventOk ts alleles s.ancestral_state m) ∧
    count_transitions ⟨[⟨"N", [⟨"C", -1⟩]⟩]⟩ ["A", "C", "G", "T"] = none :=
  ⟨fun ts alleles => foldl_countSite_eq_none_iff ts alleles ts.sites _, by decide⟩

/-- **C5.**  `count_transitions` has no side effect beyond its result:
running the loops over the full variable state (tree sequence, alphabet,
counts) leaves the tree sequence and the alphabet exactly as supplied and
returns the matrix built up from a fresh `zerosMat`, agreeing with the
pure `count_transitions`. -/
theorem count_transitions_pure (ts : TreeSeq) (alleles : List String) :
    count_transitions_run ts alleles =
      (count_transitions ts alleles).map
        (fun M => ⟨ts, alleles, M⟩) :=
  foldl_countSiteS ts alleles ts.sites (zerosMat alleles.length)

/-- **C6.**  `construct` succeeds exactly on inputs satisfying the §3
invariants (matching lengths, non-negative probabilities, rows and root
distribution summing to 1 within `1e-9`), returning the model carrying
exactly those validated fields, and fails with `ModelValidationError`
otherwise. -/
theorem construct_modelValidation (a : List String) (rd : List ℚ)
    (tm : List (List ℚ)) :
    construct a rd tm =
      if ModelInv a rd tm then Except.ok ⟨a, rd, tm⟩
      else Except.error ModelError.modelValidationError := by
  by_cases hInv : ModelInv a rd tm
  · rw [if_pos hInv]
    obtain ⟨h1, h2, h3, h4, h5, h6, h7⟩ := hInv
    have hall : rd.all (fun x => decide (0 ≤ x)) = true := by
      simp only [List.all_eq_true, decide_eq_true_eq]
      exact h4
    have hrows : rowsOk tm a.length = true :=
      (rowsOk_iff a.length tm).mpr (fun row hr => ⟨h3 row hr, h5 row hr, h7 row hr⟩)
    unfold construct
    rw [if_neg (by simp [h1]), if_neg (by simp [h2]), if_neg (by simp [hall]),
      if_neg (by simp [h6]), if_neg (by simp [hrows])]
  · rw [if_neg hInv]
    unfold construct
    by_cases h1 : rd.length ≠ a.length
    · rw [if_pos h1]
    rw [if_neg h1]
    by_cases h2 : tm.length ≠ a.length
    · rw [if_pos h2]
    rw [if_neg h2]
    by_cases h3 : ¬ rd.all (fun x => decide (0 ≤ x))
    · rw [if_pos h3]
    rw [if_neg h3]
    by_cases h4 : ¬ (|rd.sum - 1| ≤ modelTol)
    · rw [if_pos h4]
    rw [if_neg h4]
    by_cases h5 : ¬ rowsOk tm a.length
    · rw [if_pos h5]
    rw [if_neg h5]
    exfalso
    apply hInv
    have hall : ∀ x ∈ rd, 0 ≤ x := by
      have hb := not_not.mp h3
      simpa only [List.all_eq_true, decide_eq_true_eq] using hb
    have hrows := (rowsOk_iff a.length tm).mp (not_not.mp h5)
    exact ⟨not_ne_iff.mp h1, not_ne_iff.mp h2, fun row hr => (hrows row hr).1,
      hall, fun row hr => (hrows row hr).2.1, not_not.mp h4,
      fun row hr => (hrows row hr).2.2⟩

/-- **C1.**  For a collection of sites whose parent references all
resolve, counted against a model alphabet (distinct alleles) containing
every ancestral and derived state, `count_transitions` returns a k×k
matrix whose entry (i, j) is the number of mutation events across all
sites with effective parent state allele i and derived state allele j
(effective parent state: the site's ancestral state for a parentless
event, else the parent event's derived state). -/
theorem count_transitions_spec (ts : TreeSeq) (alleles : List String)
    (hnd : alleles.Nodup)
    (hres : ∀ s ∈ ts.sites, ∀ m ∈ s.mutations,
      (effParent ts s.ancestral_state m).isSome)
    (hanc : ∀ s ∈ ts.sites, s.ancestral_state ∈ alleles)
    (hder : ∀ s ∈ ts.sites, ∀ m ∈ s.mutations, m.derived_state ∈ alleles) :
    ∃ M, count_transitions ts alleles = some M ∧
      M.length = alleles.length ∧ (∀ r ∈ M, r.length = alleles.length) ∧
      ∀ i j, i < alleles.length → j < alleles.length →
        getEntry M i j = specCount ts (alleles.getD i "") (alleles.getD j "") := by
  have hok : ∀ s ∈ ts.sites, ∀ m ∈ s.mutations,
      eventOk ts alleles s.ancestral_state m :=
    fun s hs m hm => eventOk_of_covered ts alleles hanc hder s hs m hm (hres s hs m hm)
  obtain ⟨M, hfold, hshape, hentry, _⟩ :=
    foldl_countSite_master ts alleles ts.sites (zerosMat alleles.length) hok
      (matShape_zerosMat alleles.length)
  refine ⟨M, hfold, hshape.1, hshape.2, ?_⟩
  intro i j hi hj
  rw [hentry i j, getEntry_zerosMat, Nat.zero_add]
  unfold idxCountSites specCount
  apply congrArg
  apply List.map_congr_left
  intro s hs
  apply congrArg
  apply List.filter_congr
  intro m hm
  exact matchIdx_eq_matchEvent ts alleles s.ancestral_state m hnd i j hi hj
    (hok s hs m hm)

/-- Witness for C1: the spec §8 scenario satisfies the hypotheses and the
characterisation. -/
theorem count_transitions_spec_witness :
    ∃ M, count_transitions exTs exAlleles = some M ∧
      M.length = exAlleles.length ∧ (∀ r ∈ M, r.length = exAlleles.length) ∧
      ∀ i j, i < exAlleles.length → j < exAlleles.length →
        getEntry M i j = specCount exTs (exAlleles.getD i "") (exAlleles.getD j "") :=
  count_transitions_spec exTs exAlleles (by decide) (by decide) (by decide)
    (by decide)

/-- **C9.**  Under the same coverage hypotheses, the entries of the
returned matrix sum to the total number of mutation events across the
input sites — each event increments exactly one cell by one — and every
entry is a non-negative integer (the matrix lives in ℕ). -/
theorem count_transitions_event_total (ts : TreeSeq) (alleles : List String)
    (hres : ∀ s ∈ ts.sites, ∀ m ∈ s.mutations,
      (effParent ts s.ancestral_state m).isSome)
    (hanc : ∀ s ∈ ts.sites, s.ancestral_state ∈ alleles)
    (hder : ∀ s ∈ ts.sites, ∀ m ∈ s.mutations, m.derived_state ∈ alleles) :
    ∃ M, count_transitions ts alleles = some M ∧
      matTotal M = totalMuts ts.sites ∧ ∀ i j, 0 ≤ getEntry M i j := by
  have hok : ∀ s ∈ ts.sites, ∀ m ∈ s.mutations,
      eventOk ts alleles s.ancestral_state m :=
    fun s hs m hm => eventOk_of_covered ts alleles hanc hder s hs m hm (hres s hs m hm)
  obtain ⟨M, hfold, _, _, htotal⟩ :=
    foldl_countSite_master ts alleles ts.sites (zerosMat alleles.length) hok
      (matShape_zerosMat alleles.length)
  refine ⟨M, hfold, ?_, fun i j => Nat.zero_le _⟩
  rw [htotal, matTotal_zerosMat, Nat.zero_add]

/-- Witness for C9 on the spec §8 scenario: three mutation events in all. -/
theorem count_transitions_event_total_witness :
    ∃ M, count_transitions exTs exAlleles = some M ∧
      matTotal M = totalMuts exTs.sites ∧ ∀ i j, 0 ≤ getEntry M i j :=
  count_transitions_event_total exTs exAlleles (by decide) (by decide) (by decide)

/-- **C3.**  Counting distributes over the disjoint union of two shards:
with each shard's observed states covered by the alphabet, counting each
shard and adding the matrices elementwise equals counting the union, and
the elementwise addition is commutative, so merge order is irrelevant. -/
theorem count_transitions_shard_sum (t1 t2 : TreeSeq) (alleles : List String)
    (hok1 : ∀ s ∈ t1.sites, ∀ m ∈ s.mutations, eventOk t1 alleles s.ancestral_state m)
    (hok2 : ∀ s ∈ t2.sites, ∀ m ∈ s.mutations, eventOk t2 alleles s.ancestral_state m) :
    ∃ M1 M2 M, count_transitions t1 alleles = some M1 ∧
      count_transitions t2 alleles = some M2 ∧
      count_transitions (t1.union t2) alleles = some M ∧
      M = matAdd M1 M2 ∧ matAdd M1 M2 = matAdd M2 M1 := by
  obtain ⟨M1, h1, hs1, he1, _⟩ :=
    foldl_countSite_master t1 alleles t1.sites (zerosMat alleles.length) hok1
      (matShape_zerosMat alleles.length)
  obtain ⟨M2, h2, hs2, he2, _⟩ :=
    foldl_countSite_master t2 alleles t2.sites (zerosMat alleles.length) hok2
      (matShape_zerosMat alleles.length)
  obtain ⟨M, hM, hsM, heM, _⟩ :=
    foldl_countSite_master (t1.union t2) alleles (t1.union t2).sites
      (zerosMat alleles.length) (eventOk_union t1 t2 alleles hok1 hok2)
      (matShape_zerosMat alleles.length)
  refine ⟨M1, M2, M, h1, h2, hM, ?_, matAdd_comm M1 M2⟩
  apply mat_ext
  · rw [hsM.1]
    unfold matAdd
    rw [List.length_zipWith, hs1.1, hs2.1]
    omega
  · intro i hi
    have hik : i < alleles.length := by rw [← hsM.1]; exact hi
    rw [matShape_row alleles.length M i hsM hik,
      matAdd_row_length alleles.length M1 M2 hs1 hs2 i hik]
  · intro i j
    rw [heM i j, getEntry_zerosMat, Nat.zero_add,
      idxCountSites_union t1 t2 alleles i j hok1 hok2,
      getEntry_matAdd alleles.length M1 M2 hs1 hs2 i j, he1 i j, he2 i j,
      getEntry_zerosMat]
    omega

/-- Witness for C3: the §8 scenario as one shard, a stacked one-site
tree sequence as the other. -/
theorem count_transitions_shard_sum_witness :
    ∃ M1 M2 M, count_transitions exTs exAlleles = some M1 ∧
      count_transitions exTs2 exAlleles = some M2 ∧
      count_transitions (exTs.union exTs2) exAlleles = some M ∧
      M = matAdd M1 M2 ∧ matAdd M1 M2 = matAdd M2 M1 :=
  count_transitions_shard_sum exTs exTs2 exAlleles (by decide) (by decide)

/-- **C8.**  The count is independent of the order in which sites are
visited and of the order in which the events of a site are visited: any
site list related to the input's by per-site event permutation and
site-level permutation folds to the very same result (both the matrix and
the failure outcome); determinism on identical inputs is immediate since
the embedded function is pure. -/
theorem count_transitions_order_independent (ts : TreeSeq) (alleles : List String)
    (l' l'' : List Site) (hrel : List.Forall₂ SitePerm ts.sites l'')
    (hperm : l''.Perm l') :
    l'.foldlM (countSite ts alleles) (zerosMat alleles.length) =
      count_transitions ts alleles := by
  have hmem : ∀ s' ∈ l', ∃ s ∈ ts.sites, SitePerm s s' := fun s' hs' =>
    forall2_sitePerm_mem_right hrel s' (hperm.mem_iff.mpr hs')
  have hmem' : ∀ s ∈ ts.sites, ∃ s' ∈ l', SitePerm s s' := by
    intro s hs
    obtain ⟨s', hs', hsp⟩ := forall2_sitePerm_mem_left hrel s hs
    exact ⟨s', hperm.mem_iff.mp hs', hsp⟩
  by_cases hok : ∀ s ∈ ts.sites, ∀ m ∈ s.mutations,
    eventOk ts alleles s.ancestral_state m
  · have hok' : ∀ s' ∈ l', ∀ m ∈ s'.mutations,
        eventOk ts alleles s'.ancestral_state m := by
      intro s' hs' m hm
      obtain ⟨s, hs, hanc, hp⟩ := hmem s' hs'
      rw [← hanc]
      exact hok s hs m (hp.mem_iff.mpr hm)
    obtain ⟨M, hM, hsM, heM, _⟩ :=
      foldl_countSite_master ts alleles ts.sites (zerosMat alleles.length) hok
        (matShape_zerosMat alleles.length)
    obtain ⟨M', hM', hsM', heM', _⟩ :=
      foldl_countSite_master ts alleles l' (zerosMat alleles.length) hok'
        (matShape_zerosMat alleles.length)
    rw [hM', show count_transitions ts alleles = some M from hM]
    congr 1
    apply mat_ext
    · rw [hsM'.1, hsM.1]
    · intro i hi
      have hik : i < alleles.length := by rw [← hsM'.1]; exact hi
      rw [matShape_row alleles.length M' i hsM' hik,
        matShape_row alleles.length M i hsM hik]
    · intro i j
      rw [heM' i j, heM i j]
      have h1 := idxCountSites_forall2 ts alleles i j hrel
      have h2 := idxCountSites_perm ts alleles i j hperm
      omega
  · push_neg at hok
    obtain ⟨s, hs, m, hm, hbad⟩ := hok
    have hnone : count_transitions ts alleles = none :=
      (foldl_countSite_eq_none_iff ts alleles ts.sites _).mpr ⟨s, hs, m, hm, hbad⟩
    obtain ⟨s', hs', hanc, hp⟩ := hmem' s hs
    have hbad' : ¬ eventOk ts alleles s'.ancestral_state m := by
      rw [← hanc]
      exact hbad
    have hnone' : l'.foldlM (countSite ts alleles) (zerosMat alleles.length) = none :=
      (foldl_countSite_eq_none_iff ts alleles l' _).mpr
        ⟨s', hs', m, hp.mem_iff.mp hm, hbad'⟩
    rw [hnone, hnone']

/-- Witness for C8: reversing the site order and swapping site 2's two
events leaves the §8 scenario's count unchanged. -/
theorem count_transitions_order_independent_witness :
    [exSite3, exSite2Swapped, exSite1].foldlM (countSite exTs exAlleles)
      (zerosMat exAlleles.length) = count_transitions exTs exAlleles :=
  count_transitions_order_independent exTs exAlleles
    [exSite3, exSite2Swapped, exSite1] [exSite1, exSite2Swapped, exSite3]
    (List.Forall₂.cons ⟨rfl, List.Perm.refl _⟩
      (List.Forall₂.cons ⟨rfl, by decide⟩
        (List.Forall₂.cons ⟨rfl, List.Perm.refl _⟩ List.Forall₂.nil)))
    (by decide)

/-- **C7.**  For any count matrix matching the model's alphabet size,
`check_conformance` returns a per-row report (it never raises for
statistical non-conformance), and every row with zero total observations
is flagged `insufficient_data` — in particular never `fail`. -/
theorem check_conformance_insufficient (counts : List (List Nat))
    (model : MutationModel) (tolerance : ℚ)
    (hlen : counts.length = model.alleles.length)
    (hrows : ∀ row ∈ counts, row.length = model.alleles.length) :
    ∃ reports, check_conformance counts model tolerance = .ok reports ∧
      reports.length = counts.length ∧
      ∀ i, i < counts.length → (counts.getD i []).sum = 0 →
        ∃ rep, reports[i]? = some rep ∧
          rep.status = RowStatus.insufficient_data ∧
          rep.status ≠ RowStatus.fail := by
  refine ⟨_, by rw [check_conformance, if_pos ⟨hlen, hrows⟩], ?_, ?_⟩
  · rw [List.length_map, List.enum_length]
  · intro i hi hsum
    have hz : counts[i].sum = 0 := by
      rwa [List.getD_eq_getElem counts [] hi] at hsum
    refine ⟨⟨i, 0, RowStatus.insufficient_data⟩, ?_, rfl, by simp⟩
    rw [List.getElem?_map]
    have henum : counts.enum[i]? = counts[i]?.map (fun a => (i, a)) := by
      simp [List.getElem?_enum]
    rw [henum, List.getElem?_eq_getElem hi]
    simp [hz]

/-- Witness for C7: an all-zero 2×2 count matrix against a binary model —
both rows come back `insufficient_data`. -/
theorem check_conformance_insufficient_witness :
    ∃ reports, check_conformance [[0, 0], [0, 0]]
        ⟨["0", "1"], [1/2, 1/2], [[0, 1], [1, 0]]⟩ (1/20) = .ok reports ∧
      reports.length = ([[0, 0], [0, 0]] : List (List Nat)).length ∧
      ∀ i, i < ([[0, 0], [0, 0]] : List (List Nat)).length →
        (([[0, 0], [0, 0]] : List (List Nat)).getD i []).sum = 0 →
        ∃ rep, reports[i]? = some rep ∧
          rep.status = RowStatus.insufficient_data ∧
          rep.status ≠ RowStatus.fail :=
  check_conformance_insufficient [[0, 0], [0, 0]]
    ⟨["0", "1"], [1/2, 1/2], [[0, 1], [1, 0]]⟩ (1/20) (by decide) (by decide)

/-- The proportions `(c0/n, (n-c0)/n)` are non-negative and sum to 1. -/
theorem ratio_pair_spec (n c0 : Nat) (hn : n ≠ 0) (hc0 : c0 ≤ n) :
    0 ≤ ((c0 : Nat) : ℚ) / ((n : Nat) : ℚ) ∧
      0 ≤ (((n - c0 : Nat)) : ℚ) / ((n : Nat) : ℚ) ∧
      ((c0 : Nat) : ℚ) / ((n : Nat) : ℚ) +
        (((n - c0 : Nat)) : ℚ) / ((n : Nat) : ℚ) = 1 := by
  have hnn : (((n : Nat)) : ℚ) ≠ 0 := Nat.cast_ne_zero.mpr hn
  refine ⟨div_nonneg (Nat.cast_nonneg _) (Nat.cast_nonneg _),
    div_nonneg (Nat.cast_nonneg _) (Nat.cast_nonneg _), ?_⟩
  rw [div_add_div_same]
  have hcast : ((c0 : Nat) : ℚ) + (((n - c0 : Nat)) : ℚ) = ((n : Nat) : ℚ) := by
    push_cast [hc0]
    ring
  rw [hcast, div_self hnn]

/-- **C10.**  `find_nearest_neighbour_populations` returns (0, 0) whenever
the focal sample has no parent in the tree (parent = -1); and whenever the
parent exists and carries at least one leaf other than the focal sample,
the two returned proportions are non-negative and sum to 1. -/
theorem find_nearest_neighbour_populations_spec (t : TskitTree)
    (focal_sample : Nat) :
    (t.parent focal_sample = -1 →
      find_nearest_neighbour_populations t focal_sample = some (0, 0)) ∧
    (t.parent focal_sample ≠ -1 →
      ((t.leaves (t.parent focal_sample).toNat).filter
        (fun c => c != focal_sample)) ≠ [] →
      ∃ p0 p1, find_nearest_neighbour_populations t focal_sample = some (p0, p1) ∧
        0 ≤ p0 ∧ 0 ≤ p1 ∧ p0 + p1 = 1) := by
  constructor
  · intro hp
    simp only [find_nearest_neighbour_populations]
    rw [if_pos hp]
  · intro hp hne
    simp only [find_nearest_neighbour_populations]
    rw [if_neg hp]
    have hn : ((t.leaves (t.parent focal_sample).toNat).filter
        (fun c => c != focal_sample)).length ≠ 0 := by
      intro h0
      exact hne (List.length_eq_zero.mp h0)
    rw [if_neg (by rw [List.length_map]; exact hn)]
    have hc0 : ((((t.leaves (t.parent focal_sample).toNat).filter
          (fun c => c != focal_sample)).map t.population).filter
          (fun pop => pop == 0)).length ≤
        (((t.leaves (t.parent focal_sample).toNat).filter
          (fun c => c != focal_sample)).map t.population).length :=
      List.length_filter_le _ _
    have hnm : (((t.leaves (t.parent focal_sample).toNat).filter
        (fun c => c != focal_sample)).map t.population).length ≠ 0 := by
      rw [List.length_map]
      exact hn
    obtain ⟨ha, hb, hab⟩ := ratio_pair_spec _ _ hnm hc0
    exact ⟨_, _, rfl, ha, hb, hab⟩

/-- Witness for C10: in the two-leaf tree, sample 5 has no parent and gets
(0, 0); sample 0 has parent 2 with sibling leaf 1, and the proportions
returned are non-negative and sum to 1. -/
theorem find_nearest_neighbour_populations_spec_witness :
    find_nearest_neighbour_populations exTree 5 = some (0, 0) ∧
    ∃ p0 p1, find_nearest_neighbour_populations exTree 0 = some (p0, p1) ∧
      0 ≤ p0 ∧ 0 ≤ p1 ∧ p0 + p1 = 1 :=
  ⟨(find_nearest_neighbour_populations_spec exTree 5).1 (by decide),
   (find_nearest_neighbour_populations_spec exTree 0).2 (by decide) (by decide)⟩
